import Mathlib

/-!
Verification development for sputnikvm-dev, a single-process in-memory
development node for an EVM-compatible blockchain.

The data model and the chain-store / miner / RPC operations are shallowly
embedded from the Rust sources (`src/miner/state.rs`, `src/miner/mod.rs`,
`src/rpc/serves.rs`, `src/rpc/util.rs`).  Machine integers are modelled as
`Nat`; 256-bit hashes are `Nat` content addresses.  External collaborators
(Keccak-256, RLP, the Merkle-Patricia trie, the sputnikvm EVM and the
sputnikvm-stateful world state) are modelled from the spec as injective
content-address encodings and as explicit function parameters; each such
definition carries a doc comment saying so.  Fallible Rust paths
(`Result`, `unwrap`, asserts, out-of-range indexing) are modelled with
`Option`/`Except`, `none` standing for a panic.
-/

namespace SputnikDev

/-- 256-bit Keccak output, modelled as a natural-number content address. -/
abbrev H256 := Nat

/-- 160-bit account identifier. -/
abbrev Address := Nat

/-- `block::TransactionAction`: a transaction either calls an address or creates a contract. -/
inductive TransactionAction where
  | Call (address : Address)
  | Create
deriving DecidableEq, Repr

/-- `block::Transaction`: `{nonce, gas_price, gas_limit, action, value, input, v, r, s}`. -/
structure Transaction where
  nonce : Nat
  gasPrice : Nat
  gasLimit : Nat
  action : TransactionAction
  value : Nat
  input : List Nat
  v : Nat
  r : Nat
  s : Nat
deriving DecidableEq, Repr

/-- `block::Log`: `{address, topics, data}`. -/
structure Log where
  address : Address
  topics : List H256
  data : List Nat
deriving DecidableEq, Repr

/-- `block::Receipt`: `{used_gas, logs, logs_bloom, state_root}`.  The 2048-bit
logs bloom is modelled as a `Nat` under bitwise or.  Note the source type has
no status field. -/
structure Receipt where
  usedGas : Nat
  logs : List Log
  logsBloom : Nat
  stateRoot : H256
deriving DecidableEq, Repr

/-- `block::Header`: the fifteen RLP header fields. -/
structure Header where
  parentHash : H256
  ommersHash : H256
  beneficiary : Address
  stateRoot : H256
  transactionsRoot : H256
  receiptsRoot : H256
  logsBloom : Nat
  difficulty : Nat
  number : Nat
  gasLimit : Nat
  gasUsed : Nat
  timestamp : Nat
  extraData : Nat
  mixHash : Nat
  nonce : Nat
deriving DecidableEq, Repr

/-- `block::Block`: `{header, transactions, ommers}`. -/
structure Block where
  header : Header
  transactions : List Transaction
  ommers : List Header
deriving DecidableEq, Repr

/-- The tuple of all header fields, used to build the header's content address. -/
def headerKey (h : Header) :
    Nat × Nat × Nat × Nat × Nat × Nat × Nat × Nat × Nat × Nat × Nat × Nat × Nat × Nat × Nat :=
  (h.parentHash, h.ommersHash, h.beneficiary, h.stateRoot, h.transactionsRoot,
   h.receiptsRoot, h.logsBloom, h.difficulty, h.number, h.gasLimit, h.gasUsed,
   h.timestamp, h.extraData, h.mixHash, h.nonce)

/-- Modelled from the spec: the block hash `Keccak(RLP(header))`
(`header.header_hash()`, blockchain crate, external).  Keccak over canonical
RLP is treated as an injective content address, realised by an injective
encoding of the header fields. -/
def headerHash (h : Header) : H256 :=
  Encodable.encode (headerKey h)

/-- The injective key of a transaction's content: the action is encoded as
`Option Address` (`Call a ↦ some a`, `Create ↦ none`). -/
def txKey (t : Transaction) :
    Nat × Nat × Nat × Option Nat × Nat × List Nat × Nat × Nat × Nat :=
  (t.nonce, t.gasPrice, t.gasLimit,
   (match t.action with
    | TransactionAction.Call a => some a
    | TransactionAction.Create => none),
   t.value, t.input, t.v, t.r, t.s)

/-- Modelled from the spec: the transaction hash `Keccak(RLP(tx))` (external
Keccak/RLP), treated as an injective content address. -/
def txHash (t : Transaction) : H256 :=
  Encodable.encode (txKey t)

/-- `error::Error`: the node's error taxonomy (`src/error.rs`). -/
inductive Error where
  | InvalidParams
  | HexError
  | UnsupportedTrieQuery
  | ECDSAError
  | NotFound
  | RlpError
  | CallError
deriving DecidableEq, Repr

/-- `block::TotalHeader`: a header plus the cumulative difficulty to genesis.
Modelled from the spec: computed incrementally on append (blockchain crate,
external). -/
structure TotalHeader where
  header : Header
  totalDifficulty : Nat
deriving DecidableEq, Repr

/-- Modelled from the spec: `TotalHeader::from_genesis`. -/
def TotalHeader.fromGenesis (h : Header) : TotalHeader :=
  { header := h, totalDifficulty := h.difficulty }

/-- Modelled from the spec: `TotalHeader::from_parent`: parent's cumulative
difficulty plus this header's difficulty. -/
def TotalHeader.fromParent (h : Header) (parent : TotalHeader) : TotalHeader :=
  { header := h, totalDifficulty := parent.totalDifficulty + h.difficulty }

/-- A `HashMap<H256, α>` observed through `insert`/`get`: modelled as an
association list where insertion conses and lookup takes the first (most
recent) binding for a key. -/
abbrev Database (α : Type) := List (H256 × α)

/-- `HashMap::insert` (later insertions shadow earlier ones for the same key). -/
def dbInsert {α : Type} (m : Database α) (k : H256) (v : α) : Database α :=
  (k, v) :: m

/-- `HashMap::get`. -/
def dbGet {α : Type} (m : Database α) (k : H256) : Option α :=
  (m.find? (fun p => p.1 == k)).map (fun p => p.2)

/-- `MinerState` (`src/miner/state.rs`): the single owner of chain state and
pending work.  The `MemoryStateful` member is represented by its state root
(`statefulRoot`); the trie database behind it is external. -/
structure MinerState where
  allPendingTransactionHashes : List H256
  pendingTransactionHashes : List H256
  currentBlock : H256
  blockHashes : List H256
  transactionBlockHashes : Database H256
  totalHeaderDatabase : Database TotalHeader
  transactionDatabase : Database Transaction
  blockDatabase : Database Block
  receiptDatabase : Database Receipt
  addressDatabase : List Address
  accounts : List Nat
  statefulRoot : H256
deriving DecidableEq, Repr

/-- `MinerState::new(genesis, stateful)`: index the genesis block by hash,
record its total header, and start the hash list at the genesis hash.  The
source asserts `genesis.transactions.len() == 0`. -/
def MinerState.new (genesis : Block) (root : H256) : MinerState :=
  let hash := headerHash genesis.header
  { allPendingTransactionHashes := []
    pendingTransactionHashes := []
    currentBlock := hash
    blockHashes := [hash]
    transactionBlockHashes := []
    totalHeaderDatabase := dbInsert [] hash (TotalHeader.fromGenesis genesis.header)
    transactionDatabase := []
    blockDatabase := dbInsert [] hash genesis
    receiptDatabase := []
    addressDatabase := []
    accounts := []
    statefulRoot := root }

/-- `MinerState::append_pending_transaction`: store the transaction under its
hash and push the hash onto both the pending queue and the all-pending
history; return the hash. -/
def MinerState.appendPendingTransaction (s : MinerState) (t : Transaction) :
    MinerState × H256 :=
  let hash := txHash t
  ({ s with
      transactionDatabase := dbInsert s.transactionDatabase hash t
      pendingTransactionHashes := s.pendingTransactionHashes ++ [hash]
      allPendingTransactionHashes := s.allPendingTransactionHashes ++ [hash] },
   hash)

/-- The lookup loop of `clear_pending_transactions`: push the transaction
recorded for each hash; the `unwrap` on a missing hash is modelled as `none`. -/
def lookupAll (db : Database Transaction) : List H256 → Option (List Transaction)
  | [] => some []
  | h :: rest =>
    match dbGet db h with
    | none => none
    | some t => (lookupAll db rest).map (fun ts => t :: ts)

/-- `MinerState::clear_pending_transactions`: take the queue, then look each
hash up in the transaction database in order. -/
def MinerState.clearPendingTransactions (s : MinerState) :
    Option (List Transaction × MinerState) :=
  let hashes := s.pendingTransactionHashes
  let s' := { s with pendingTransactionHashes := [] }
  (lookupAll s.transactionDatabase hashes).map (fun ts => (ts, s'))

/-- `MinerState::append_block`: index the block by hash, record each contained
transaction's hash → block hash, compute the total header from the parent (the
last recorded hash; `assert!` and `unwrap` are modelled as `none`), push the
hash and make it current. -/
def MinerState.appendBlock (s : MinerState) (b : Block) :
    Option (MinerState × H256) :=
  let hash := headerHash b.header
  let blockDatabase := dbInsert s.blockDatabase hash b
  let transactionBlockHashes :=
    b.transactions.foldl (fun db t => dbInsert db (txHash t) hash)
      s.transactionBlockHashes
  match s.blockHashes.getLast? with
  | none => none
  | some parentHash =>
    match dbGet s.totalHeaderDatabase parentHash with
    | none => none
    | some parent =>
      some ({ s with
                blockDatabase := blockDatabase
                transactionBlockHashes := transactionBlockHashes
                totalHeaderDatabase :=
                  dbInsert s.totalHeaderDatabase hash
                    (TotalHeader.fromParent b.header parent)
                blockHashes := s.blockHashes ++ [hash]
                currentBlock := hash },
            hash)

/-- `MinerState::append_address`. -/
def MinerState.appendAddress (s : MinerState) (a : Address) : MinerState :=
  { s with addressDatabase := s.addressDatabase ++ [a] }

/-- `MinerState::insert_receipt`. -/
def MinerState.insertReceipt (s : MinerState) (h : H256) (r : Receipt) : MinerState :=
  { s with receiptDatabase := dbInsert s.receiptDatabase h r }

/-- `MinerState::append_account`. -/
def MinerState.appendAccount (s : MinerState) (k : Nat) : MinerState :=
  { s with accounts := s.accounts ++ [k] }

/-- `MinerState::block_height`: `block_hashes.len() - 1`. -/
def MinerState.blockHeight (s : MinerState) : Nat :=
  s.blockHashes.length - 1

/-- `MinerState::get_transaction_block_hash_by_hash` (`Err(NotFound) ↦ none`). -/
def MinerState.getTransactionBlockHashByHash (s : MinerState) (k : H256) : Option H256 :=
  dbGet s.transactionBlockHashes k

/-- `MinerState::get_block_by_hash` (`Err(NotFound) ↦ none`). -/
def MinerState.getBlockByHash (s : MinerState) (k : H256) : Option Block :=
  dbGet s.blockDatabase k

/-- `MinerState::get_transaction_by_hash` (`Err(NotFound) ↦ none`). -/
def MinerState.getTransactionByHash (s : MinerState) (k : H256) : Option Transaction :=
  dbGet s.transactionDatabase k

/-- `MinerState::get_receipt_by_transaction_hash` (`Err(NotFound) ↦ none`). -/
def MinerState.getReceiptByTransactionHash (s : MinerState) (k : H256) : Option Receipt :=
  dbGet s.receiptDatabase k

/-- `MinerState::get_block_by_number`: index `block_hashes` and unwrap the
block lookup; the index panic and the unwrap are modelled as `none`. -/
def MinerState.getBlockByNumber (s : MinerState) (index : Nat) : Option Block :=
  (s.blockHashes[index]?).bind (fun h => dbGet s.blockDatabase h)

/-- `MinerState::get_total_header_by_hash` (`Err(NotFound) ↦ none`). -/
def MinerState.getTotalHeaderByHash (s : MinerState) (k : H256) : Option TotalHeader :=
  dbGet s.totalHeaderDatabase k

/-- `MinerState::get_total_header_by_number` (index + unwrap modelled as `none`). -/
def MinerState.getTotalHeaderByNumber (s : MinerState) (index : Nat) : Option TotalHeader :=
  (s.blockHashes[index]?).bind (fun h => dbGet s.totalHeaderDatabase h)

/-- `MinerState::current_block()`: the block at index `block_height()`. -/
def MinerState.getCurrentBlock (s : MinerState) : Option Block :=
  s.getBlockByNumber s.blockHeight

/-- The pop loop of `get_last_256_block_hashes_by_number`: pop from the end of
`hashes` up to `fuel` times, collecting the popped values in order. -/
def popLoop : Nat → List H256 → List H256
  | 0, _ => []
  | fuel + 1, hashes =>
    match hashes.getLast? with
    | none => []
    | some v => v :: popLoop fuel hashes.dropLast

/-- `MinerState::get_last_256_block_hashes_by_number`: slice
`block_hashes[0..number]` (the slice panics when `number` exceeds the length,
modelled as `none`), then pop up to 256 hashes from its end. -/
def MinerState.getLast256BlockHashesByNumber (s : MinerState) (number : Nat) :
    Option (List H256) :=
  if number ≤ s.blockHashes.length then
    some (popLoop 256 (s.blockHashes.take number))
  else none

/-- `MinerState::get_last_256_block_hashes`: the last-256 list at the current
block's number. -/
def MinerState.getLast256BlockHashes (s : MinerState) : Option (List H256) :=
  (s.getCurrentBlock).bind (fun b => s.getLast256BlockHashesByNumber b.header.number)

/-- Modelled from the spec: the canonical empty-trie root (Keccak of the RLP
empty string; external constant). -/
def emptyTrieRoot : H256 := 0

/-- Modelled from the spec: the Merkle-Patricia root of the trie mapping
RLP-encoded index to RLP-encoded transaction (trie crate, external), treated
as a content address of the transaction list. -/
def transactionsTrieRoot (ts : List Transaction) : H256 :=
  Encodable.encode (ts.map txHash)

/-- Modelled from the spec: the Merkle-Patricia root of the receipts trie
(trie crate, external), treated as a content address of the receipt list. -/
def receiptsTrieRoot (rs : List Receipt) : H256 :=
  Encodable.encode (rs.map (fun r =>
    (r.usedGas, r.logs.map (fun l => (l.address, l.topics, l.data)),
     r.logsBloom, r.stateRoot)))

/-- `miner::next` (`src/miner/mod.rs:197`): assemble the next block from the
current block, the executed transactions and their receipts; the fold over
the receipts ors the blooms and sums the gas.  The post-execution state root
(`state.root()`) and the wall-clock timestamp are supplied as parameters. -/
def next (current : Block) (transactions : List Transaction)
    (receipts : List Receipt) (beneficiary : Address) (gasLimit : Nat)
    (stateRoot : H256) (timestamp : Nat) : Block :=
  let logsBloom := receipts.foldl (fun acc r => acc ||| r.logsBloom) 0
  let gasUsed := receipts.foldl (fun acc r => acc + r.usedGas) 0
  { header :=
      { parentHash := headerHash current.header
        ommersHash := emptyTrieRoot
        beneficiary := beneficiary
        stateRoot := stateRoot
        transactionsRoot := transactionsTrieRoot transactions
        receiptsRoot := receiptsTrieRoot receipts
        logsBloom := logsBloom
        gasLimit := gasLimit
        gasUsed := gasUsed
        timestamp := timestamp
        extraData := 0
        number := current.header.number + 1
        difficulty := 0
        mixHash := 0
        nonce := 0 }
    transactions := transactions
    ommers := [] }

/-- Modelled from the spec: sputnikvm's `ValidTransaction` — a transaction
whose signature, nonce, balance and intrinsic gas have been checked; `caller`
is the recovered sender. -/
structure ValidTransaction where
  caller : Option Address
  gasPrice : Nat
  gasLimit : Nat
  action : TransactionAction
  value : Nat
  input : List Nat
  nonce : Nat
deriving DecidableEq, Repr

/-- Modelled from the spec: the settled outcome of sputnikvm's
`ValidTransaction::from_transaction` once every `RequireError` has been
answered by committing the required state (external crate): `Ok(Ok(v))` for a
valid transaction, `Ok(Err(_))` for one failing validation. -/
inductive ValidationOutcome where
  | valid (v : ValidTransaction)
  | invalid
deriving DecidableEq, Repr

/-- `miner::to_valid` (`src/miner/mod.rs:249`): the require/commit loop ends
in `return val.unwrap()`, which panics when validation failed; the panic is
modelled as `none`. -/
def minerToValid (fromTransaction : Transaction → ValidationOutcome)
    (t : Transaction) : Option ValidTransaction :=
  match fromTransaction t with
  | ValidationOutcome.valid v => some v
  | ValidationOutcome.invalid => none

/-- One round of `miner::mine_loop` over the drained transactions
(`src/miner/mod.rs:378-383`): validate each transaction in order with
`to_valid`, execute it (`transit`; its effect on the state trie is abstracted
as `execute` over a state of type `σ`), and collect the receipts in order.
`none` models the panic that aborts the round. -/
def mineRound {σ : Type} (fromTransaction : Transaction → ValidationOutcome)
    (execute : σ → ValidTransaction → Receipt × σ) :
    σ → List Transaction → Option (List Receipt × σ)
  | st, [] => some ([], st)
  | st, t :: rest =>
    match minerToValid fromTransaction t with
    | none => none
    | some v =>
      let p := execute st v
      (mineRound fromTransaction execute p.2 rest).map
        (fun q => (p.1 :: q.1, q.2))

/-- The prefix-replay loop of `MinerDebugRPC::trace_transaction`
(`src/rpc/serves.rs:587-595`): walking the block's transactions, the loop
compares `other_transaction` against the target but then validates and
executes `transaction` — the target itself — and breaks at the first
equality.  This function collects, in order, the transactions the loop hands
to `to_valid`/`execute` before the target is stepped. -/
def tracePrefixReplayed (target : Transaction) :
    List Transaction → List Transaction
  | [] => []
  | other :: rest =>
    if other ≠ target then target :: tracePrefixReplayed target rest
    else []

/-- A hexadecimal digit's value. -/
def hexDigitValue (c : Char) : Option Nat :=
  if '0' ≤ c ∧ c ≤ '9' then some (c.toNat - '0'.toNat)
  else if 'a' ≤ c ∧ c ≤ 'f' then some (c.toNat - 'a'.toNat + 10)
  else if 'A' ≤ c ∧ c ≤ 'F' then some (c.toNat - 'A'.toNat + 10)
  else none

/-- Pair an even-length nibble list into big-endian bytes. -/
def bytesOfNibbles : List Nat → List Nat
  | [] => []
  | [n] => [n]
  | hi :: lo :: rest => (hi * 16 + lo) :: bytesOfNibbles rest

/-- Modelled from the spec: `hexutil::read_hex` (external crate): accept an
optional `0x` prefix, require hexadecimal digits, read an odd number of
digits with an implicit leading zero nibble, and produce big-endian bytes. -/
def readHex (str : String) : Option (List Nat) :=
  let cs :=
    match str.data with
    | '0' :: 'x' :: rest => rest
    | other => other
  (cs.mapM hexDigitValue).map (fun nibbles =>
    bytesOfNibbles (if nibbles.length % 2 = 1 then 0 :: nibbles else nibbles))

/-- Big-endian bytes to an unsigned integer (`U256::from(&[u8])`, bigint
crate, external). -/
def u256FromBytes (bytes : List Nat) : Nat :=
  bytes.foldl (fun acc b => acc * 256 + b) 0

/-- `rpc::util::from_block_number` (`src/rpc/util.rs:17`): `"latest"`,
`"pending"` and an absent parameter resolve to the current height,
`"earliest"` to 0; anything else is hex-decoded to an integer which is
rejected with `NotFound` when it exceeds the current height.  The `u64` cast
of the decoded `U256` is modelled modulo `2^64`; the claim theorem is stated
in the regime where the decoded value fits. -/
def fromBlockNumber (height : Nat) (value : Option String) : Except Error Nat :=
  if value = some "latest" ∨ value = some "pending" ∨ value = none then
    Except.ok height
  else if value = some "earliest" then
    Except.ok 0
  else
    match value with
    | none => Except.ok height
    | some str =>
      match readHex str with
      | none => Except.error Error.HexError
      | some bytes =>
        let v := u256FromBytes bytes % 2 ^ 64
        if v > height then Except.error Error.NotFound else Except.ok v

/-- The account record stored in the state trie (`block::Account`):
`{nonce, balance, storage_root, code_hash}`. -/
structure AccountData where
  nonce : Nat
  balance : Nat
  storageRoot : H256
  codeHash : H256
deriving DecidableEq, Repr

/-- Modelled from the spec: `stateful.state_of(root)` — the typed account view
of the world state at a given root (sputnikvm-stateful, external), abstracted
as a function from root and address to the optional account. -/
abbrev WorldView := H256 → Address → Option AccountData

/-- Modelled from the spec: the completed VM returned by `stateful.call`
(sputnikvm-stateful, external): `call` runs the transaction against the state
rooted at the Stateful's root and returns the finished VM without committing,
so it is a pure function of the root, the transaction, the header parameters
and the last-256 hashes. -/
structure VMOutcome where
  out : List Nat
  usedGas : Nat
  realUsedGas : Nat
deriving DecidableEq, Repr

/-- The type of the abstracted `stateful.call`. -/
abbrev CallFn := H256 → ValidTransaction → Header → List H256 → VMOutcome

/-- The parsed fields of an `RPCTransaction` request (`from`, `to`, `gas`,
`gasPrice`, `value`, `data`, `nonce`; transport-level hex parsing is
external). -/
structure RPCTransactionInput where
  sender : Address
  recipient : Option Address
  gas : Option Nat
  gasPrice : Option Nat
  value : Option Nat
  data : List Nat
  nonce : Option Nat
deriving DecidableEq, Repr

/-- `rpc::util::to_valid_transaction` (`src/rpc/util.rs:253`): build a
`ValidTransaction` from the request, defaulting a missing nonce to the
sender's nonce at the latest block (zero for a nonexistent account), missing
gas to 90000, and missing gas price and value to zero. -/
def toValidTransaction (world : WorldView) (s : MinerState)
    (tx : RPCTransactionInput) : Except Error ValidTransaction :=
  match s.getBlockByNumber s.blockHeight with
  | none => Except.error Error.NotFound
  | some block =>
    let account := world block.header.stateRoot tx.sender
    Except.ok
      { caller := some tx.sender
        gasPrice := tx.gasPrice.getD 0
        gasLimit := tx.gas.getD 90000
        action :=
          match tx.recipient with
          | some a => TransactionAction.Call a
          | none => TransactionAction.Create
        value := tx.value.getD 0
        input := tx.data
        nonce :=
          match tx.nonce with
          | some n => n
          | none =>
            match account with
            | some a => a.nonce
            | none => 0 }

/-- `MinerEthereumRPC::call` (`src/rpc/serves.rs:321`): build the valid
transaction, resolve the block parameter, run `stateful.call` against the
working state root with the chosen block's header parameters, and return the
VM output.  The handler holds the chain lock for reading only; the pair's
second component is the chain state when the handler returns. -/
def ethCall (world : WorldView) (callVM : CallFn) (s : MinerState)
    (tx : RPCTransactionInput) (blockTag : Option String) :
    Except Error (List Nat) × MinerState :=
  let result :=
    match toValidTransaction world s tx with
    | Except.error e => Except.error e
    | Except.ok valid =>
      match fromBlockNumber s.blockHeight blockTag with
      | Except.error e => Except.error e
      | Except.ok number =>
        match s.getBlockByNumber number with
        | none => Except.error Error.NotFound
        | some block =>
          match s.getLast256BlockHashes with
          | none => Except.error Error.NotFound
          | some lastHashes =>
            Except.ok (callVM s.statefulRoot valid block.header lastHashes).out
  (result, s)

/-- Iterated invocation of the `eth_call` handler, each call starting from
the state the previous call returned. -/
def ethCallIter (world : WorldView) (callVM : CallFn)
    (tx : RPCTransactionInput) (blockTag : Option String) :
    Nat → MinerState → MinerState
  | 0, s => s
  | n + 1, s =>
    ethCallIter world callVM tx blockTag n (ethCall world callVM s tx blockTag).2

/-- `MinerEthereumRPC::balance` (`src/rpc/serves.rs:122`): resolve the block,
read the account under that block's state root, zero for a nonexistent
account. -/
def ethGetBalance (world : WorldView) (s : MinerState) (address : Address)
    (blockTag : Option String) : Except Error Nat :=
  match fromBlockNumber s.blockHeight blockTag with
  | Except.error e => Except.error e
  | Except.ok number =>
    match s.getBlockByNumber number with
    | none => Except.error Error.NotFound
    | some block =>
      match world block.header.stateRoot address with
      | some account => Except.ok account.balance
      | none => Except.ok 0

/-- `MinerEthereumRPC::transaction_count` (`src/rpc/serves.rs:164`): the
account's nonce at the chosen block, zero for a nonexistent account. -/
def ethGetTransactionCount (world : WorldView) (s : MinerState)
    (address : Address) (blockTag : Option String) : Except Error Nat :=
  match fromBlockNumber s.blockHeight blockTag with
  | Except.error e => Except.error e
  | Except.ok number =>
    match s.getBlockByNumber number with
    | none => Except.error Error.NotFound
    | some block =>
      match world block.header.stateRoot address with
      | some account => Except.ok account.nonce
      | none => Except.ok 0

/-- Modelled from the spec: `to_signed_transaction` (`src/rpc/util.rs:203`),
which signs the request with the matching local account key (secp256k1,
external), abstracted as a function parameter. -/
abbrev SignFn := MinerState → RPCTransactionInput → Except Error Transaction

/-- Modelled from the spec: `stateful.to_valid` (sputnikvm-stateful,
external), which checks signature, nonce, balance and intrinsic gas,
abstracted as a function parameter. -/
abbrev ToValidFn := Transaction → Except Error ValidTransaction

/-- `MinerEthereumRPC::send_transaction` (`src/rpc/serves.rs:288`): sign and
validate, then append to the pending queue and return the hash; a validation
failure returns the error before anything is enqueued. -/
def sendTransaction (toSigned : SignFn) (toValid : ToValidFn) (s : MinerState)
    (tx : RPCTransactionInput) : Except Error H256 × MinerState :=
  match toSigned s tx with
  | Except.error e => (Except.error e, s)
  | Except.ok t =>
    match toValid t with
    | Except.error e => (Except.error e, s)
    | Except.ok _ =>
      let p := s.appendPendingTransaction t
      (Except.ok p.2, p.1)

/-- `MinerEthereumRPC::transaction_by_hash` (`src/rpc/serves.rs:390`): `none`
when the transaction hash is unknown; the block component is filled only when
the transaction is indexed into a stored block. -/
def transactionByHash (s : MinerState) (hash : H256) :
    Option (Transaction × Option Block) :=
  match s.getTransactionByHash hash with
  | none => none
  | some t =>
    let block :=
      match s.getTransactionBlockHashByHash hash with
      | some bh => s.getBlockByHash bh
      | none => none
    some (t, block)

/-- `MinerEthereumRPC::transaction_receipt` (`src/rpc/serves.rs:439`): the
receipt is served only when the receipt, the transaction, the transaction's
block hash and the block itself are all known; otherwise `none`. -/
def transactionReceipt (s : MinerState) (hash : H256) :
    Option (Receipt × Transaction × Block) :=
  match s.getReceiptByTransactionHash hash with
  | none => none
  | some r =>
    match s.getTransactionByHash hash with
    | none => none
    | some t =>
      match s.getTransactionBlockHashByHash hash with
      | none => none
      | some bh =>
        match s.getBlockByHash bh with
        | none => none
        | some b => some (r, t, b)

/-- A block is stored in the chain store when some key of the block database
maps to it. -/
def storedBlock (s : MinerState) (b : Block) : Prop :=
  ∃ k, dbGet s.blockDatabase k = some b

/-- The well-formedness invariant of `MinerState` (established by `new`,
preserved by every operation): the hash list is non-empty, `current_block` is
its last element, and every listed hash is a key of both the block database
and the total-header database. -/
def StateWF (s : MinerState) : Prop :=
  s.blockHashes ≠ [] ∧
  s.blockHashes.getLast? = some s.currentBlock ∧
  ∀ h ∈ s.blockHashes,
    (dbGet s.blockDatabase h).isSome ∧ (dbGet s.totalHeaderDatabase h).isSome

/-- The chain-store operations reachable from a starting state, recording the
blocks appended along the way. -/
inductive Reach : MinerState → MinerState → List Block → Prop where
  | refl (s : MinerState) : Reach s s []
  | pending {s s' bs} (t : Transaction) :
      Reach s s' bs → Reach s (s'.appendPendingTransaction t).1 bs
  | clearQueue {s s' bs ts s''} :
      Reach s s' bs → s'.clearPendingTransactions = some (ts, s'') →
      Reach s s'' bs
  | receipt {s s' bs} (h : H256) (r : Receipt) :
      Reach s s' bs → Reach s (s'.insertReceipt h r) bs
  | account {s s' bs} (k : Nat) :
      Reach s s' bs → Reach s (s'.appendAccount k) bs
  | address {s s' bs} (a : Address) :
      Reach s s' bs → Reach s (s'.appendAddress a) bs
  | block {s s' bs b s'' h} :
      Reach s s' bs → s'.appendBlock b = some (s'', h) →
      Reach s s'' (bs ++ [b])

/-- The chain-store states as the program produces them: genesis construction
(`MinerState::new` on a genesis block with number 0 and no transactions, as
built by the miner), then pending-queue and receipt operations, and appends
of blocks assembled by `next` from the current block. -/
inductive ChainReach (genesis : Block) (root : H256) : MinerState → Prop where
  | init :
      genesis.header.number = 0 → genesis.transactions = [] →
      ChainReach genesis root (MinerState.new genesis root)
  | pending {s} (t : Transaction) :
      ChainReach genesis root s →
      ChainReach genesis root (s.appendPendingTransaction t).1
  | clearQueue {s ts s'} :
      ChainReach genesis root s → s.clearPendingTransactions = some (ts, s') →
      ChainReach genesis root s'
  | receipt {s} (h : H256) (r : Receipt) :
      ChainReach genesis root s → ChainReach genesis root (s.insertReceipt h r)
  | mined {s cur s' h} (transactions : List Transaction)
      (receipts : List Receipt) (beneficiary : Address) (gasLimit : Nat)
      (stateRoot : H256) (timestamp : Nat) :
      ChainReach genesis root s → s.getCurrentBlock = some cur →
      s.appendBlock
          (next cur transactions receipts beneficiary gasLimit stateRoot timestamp)
        = some (s', h) →
      ChainReach genesis root s'

/-- Enqueue a list of transactions in order through
`append_pending_transaction`. -/
def appendAll (s : MinerState) (ts : List Transaction) : MinerState :=
  ts.foldl (fun s t => (s.appendPendingTransaction t).1) s

/-- The claim's reading of `last_256_block_hashes_at(n)`: the hashes of the
last `min 256 n` blocks below number `n`, in descending block-number order. -/
def last256Spec (blockHashes : List H256) (n : Nat) : List H256 :=
  (List.range (min 256 n)).map (fun i => blockHashes.getD (n - 1 - i) 0)

/-- A concrete genesis block used by the witnesses: number 0, no transactions. -/
def genesisEx : Block :=
  { header :=
      { parentHash := 0
        ommersHash := emptyTrieRoot
        beneficiary := 0
        stateRoot := 0
        transactionsRoot := emptyTrieRoot
        receiptsRoot := emptyTrieRoot
        logsBloom := 0
        difficulty := 0
        number := 0
        gasLimit := 0
        gasUsed := 0
        timestamp := 0
        extraData := 0
        mixHash := 0
        nonce := 0 }
    transactions := []
    ommers := [] }

/-- A concrete transaction used by the witnesses, distinguished by its nonce. -/
def txEx (n : Nat) : Transaction :=
  { nonce := n
    gasPrice := 0
    gasLimit := 21000
    action := TransactionAction.Create
    value := 0
    input := []
    v := 0
    r := 0
    s := 0 }

/-- A concrete receipt used by the witnesses, with a chosen logs bloom. -/
def receiptEx (bloom : Nat) : Receipt :=
  { usedGas := 21000, logs := [], logsBloom := bloom, stateRoot := 0 }

/-- A concrete validation oracle: transactions with nonce 1 fail validation,
all others are valid. -/
def fromTransactionEx (t : Transaction) : ValidationOutcome :=
  if t.nonce = 1 then ValidationOutcome.invalid
  else
    ValidationOutcome.valid
      { caller := some 0
        gasPrice := t.gasPrice
        gasLimit := t.gasLimit
        action := t.action
        value := t.value
        input := t.input
        nonce := t.nonce }

/-- A concrete execution: every transaction yields a fixed receipt and leaves
the abstract trie state unchanged. -/
def executeEx (st : Unit) (_v : ValidTransaction) : Receipt × Unit :=
  (receiptEx 0, st)

/-- A concrete RPC transaction request used by the witnesses. -/
def rpcTxEx : RPCTransactionInput :=
  { sender := 0
    recipient := none
    gas := none
    gasPrice := none
    value := none
    data := []
    nonce := none }

/-- A concrete signer used by the witnesses: always produces `txEx 0`. -/
def toSignedEx : SignFn := fun _ _ => Except.ok (txEx 0)

/-- A concrete validator used by the witnesses: accepts every transaction. -/
def toValidEx : ToValidFn := fun t =>
  Except.ok
    { caller := some 0
      gasPrice := t.gasPrice
      gasLimit := t.gasLimit
      action := t.action
      value := t.value
      input := t.input
      nonce := t.nonce }

/-- The inductive invariant behind the chain-linkage property: the genesis
block's number is 0 and it is stored under its header hash, every block
database entry is keyed by its block's header hash, the only stored block
with number 0 is the genesis, and every other entry's parent hash is the
header hash of a stored block with the preceding number. -/
def ChainInv (genesis : Block) (s : MinerState) : Prop :=
  genesis.header.number = 0 ∧
  dbGet s.blockDatabase (headerHash genesis.header) = some genesis ∧
  ∀ p ∈ s.blockDatabase,
    p.1 = headerHash p.2.header ∧
    (p.2.header.number = 0 → p.2 = genesis) ∧
    (p.2.header.number ≠ 0 →
      ∃ q, storedBlock s q ∧ headerHash q.header = p.2.header.parentHash ∧
        q.header.number + 1 = p.2.header.number)

/-! ### Helper lemmas and claim theorems -/

theorem headerKey_injective : Function.Injective headerKey := by
  intro a b h
  cases a
  cases b
  simp only [headerKey, Prod.mk.injEq] at h
  simp only [Header.mk.injEq]
  exact h

theorem headerHash_injective : Function.Injective headerHash :=
  fun _ _ h => headerKey_injective (Encodable.encode_injective h)

theorem txActionKey_injective :
    ∀ a b : TransactionAction,
      (match a with
       | TransactionAction.Call x => some x
       | TransactionAction.Create => none) =
      (match b with
       | TransactionAction.Call x => some x
       | TransactionAction.Create => none) → a = b := by
  intro a b h
  cases a <;> cases b <;> simp_all

theorem txKey_injective : Function.Injective txKey := by
  intro a b h
  cases a
  cases b
  simp only [txKey, Prod.mk.injEq] at h
  obtain ⟨h1, h2, h3, h4, h5, h6, h7, h8, h9⟩ := h
  simp only [Transaction.mk.injEq]
  exact ⟨h1, h2, h3, txActionKey_injective _ _ h4, h5, h6, h7, h8, h9⟩

theorem txHash_injective : Function.Injective txHash :=
  fun _ _ h => txKey_injective (Encodable.encode_injective h)

attribute [irreducible] headerHash txHash transactionsTrieRoot receiptsTrieRoot

theorem dbGet_insert_self {α : Type} (m : Database α) (k : H256) (v : α) :
    dbGet (dbInsert m k v) k = some v := by
  simp [dbGet, dbInsert, List.find?]

theorem dbGet_insert_ne {α : Type} (m : Database α) (k k' : H256) (v : α)
    (h : k ≠ k') : dbGet (dbInsert m k v) k' = dbGet m k' := by
  have hb : (k == k') = false := by simpa using h
  simp [dbGet, dbInsert, List.find?, hb]

theorem dbGet_mem {α : Type} {m : Database α} {k : H256} {v : α}
    (h : dbGet m k = some v) : (k, v) ∈ m := by
  unfold dbGet at h
  cases hf : m.find? (fun p => p.1 == k) with
  | none => simp [hf] at h
  | some p =>
    have hp := List.find?_some hf
    have hmem := List.mem_of_find?_eq_some hf
    simp [hf] at h
    have : p = (k, v) := by
      cases p
      simp_all [beq_iff_eq]
    simpa [this] using hmem

theorem dropLast_reverse_eq_tail (l : List H256) : l.dropLast.reverse = l.reverse.tail := by
  induction l using List.reverseRecOn with
  | nil => simp
  | append_singleton xs x ih => simp

theorem popLoop_eq_reverse_take (fuel : Nat) (l : List H256) :
    popLoop fuel l = l.reverse.take fuel := by
  induction fuel generalizing l with
  | zero => simp [popLoop]
  | succ n ih =>
    cases hr : l.reverse with
    | nil =>
      have : l = [] := by simpa using congrArg List.reverse hr
      subst this
      simp [popLoop]
    | cons v t =>
      have hlast : l.getLast? = some v := by
        rw [← List.head?_reverse, hr]
        rfl
      have htail : l.dropLast.reverse = t := by
        rw [dropLast_reverse_eq_tail, hr]
        rfl
      simp only [popLoop, hlast, hr, List.take_succ_cons]
      rw [ih, htail]

/-- C1: `debug_traceTransaction` does not replay the preceding transactions.
At a block whose transactions are `[txEx 0, txEx 1]` with target `txEx 1`, the
replay loop validates and executes the target transaction itself in place of
the preceding one: the replayed prefix is `[txEx 1]`, not the preceding
`[txEx 0]` that the claim describes. -/
theorem tracePrefixReplayed_c1 :
    tracePrefixReplayed (txEx 1) [txEx 0, txEx 1] = [txEx 1] ∧
    tracePrefixReplayed (txEx 1) [txEx 0, txEx 1] ≠ [txEx 0] := by
  decide

/-- C2: the mining loop panics on a transaction that fails validation instead
of recording a failed receipt and continuing: the round draining
`[txEx 0, txEx 1, txEx 2]`, where `txEx 1` fails validation, aborts with no
receipts at all (the `val.unwrap()` panic in `miner::to_valid`), while the
same round without the bad transaction completes; there is no failed-receipt
path at all (the source `Receipt` carries no status field). -/
theorem mineRound_c2 :
    mineRound fromTransactionEx executeEx () [txEx 0, txEx 1, txEx 2] = none ∧
    mineRound fromTransactionEx executeEx () [txEx 0, txEx 2]
      = some ([receiptEx 0, receiptEx 0], ()) := by
  decide

/-- C4: the logs bloom of the header assembled by `next` is the bitwise or of
the receipts' blooms: it equals the left fold of or over the blooms in block
order, that fold is invariant under any permutation of the bloom list, and it
is the all-zero bloom when the block has no receipts. -/
theorem next_logsBloom_c4 (current : Block) (transactions : List Transaction)
    (receipts : List Receipt) (beneficiary : Address) (gasLimit : Nat)
    (stateRoot : H256) (timestamp : Nat) :
    (next current transactions receipts beneficiary gasLimit stateRoot
        timestamp).header.logsBloom
      = (receipts.map Receipt.logsBloom).foldl (fun a b => a ||| b) 0 ∧
    (∀ l : List Nat, l.Perm (receipts.map Receipt.logsBloom) →
      l.foldl (fun a b => a ||| b) 0
        = (next current transactions receipts beneficiary gasLimit stateRoot
            timestamp).header.logsBloom) ∧
    (receipts = [] →
      (next current transactions receipts beneficiary gasLimit stateRoot
          timestamp).header.logsBloom = 0) := by
  refine ⟨?_, ?_, ?_⟩
  · simp [next, List.foldl_map]
  · intro l hperm
    rw [List.Perm.foldl_op_eq hperm]
    simp [next, List.foldl_map]
  · intro h
    subst h
    simp [next]

/-- C4 witness: the bloom of a concrete two-receipt block equals the or-fold
of the blooms taken in the reversed order. -/
theorem next_logsBloom_c4_witness :
    [2, 1].foldl (fun a b => a ||| b) 0
      = (next genesisEx [] [receiptEx 1, receiptEx 2] 0 0 0 0).header.logsBloom :=
  (next_logsBloom_c4 genesisEx [] [receiptEx 1, receiptEx 2] 0 0 0 0).2.1
    [2, 1] (by decide)

/-- C6: resolution of the RPC block parameter: `"latest"`, `"pending"` and an
absent parameter resolve to the current height, `"earliest"` to 0, and any
other value is hex-decoded to an integer that resolves to itself when at most
the current height and fails with `NotFound` exactly when it exceeds the
current height (stated for decoded values that fit the `u64` cast). -/
theorem fromBlockNumber_c6 (height : Nat) :
    fromBlockNumber height none = Except.ok height ∧
    fromBlockNumber height (some "latest") = Except.ok height ∧
    fromBlockNumber height (some "pending") = Except.ok height ∧
    fromBlockNumber height (some "earliest") = Except.ok 0 ∧
    ∀ str bytes, str ≠ "latest" → str ≠ "pending" → str ≠ "earliest" →
      readHex str = some bytes → u256FromBytes bytes < 2 ^ 64 →
      fromBlockNumber height (some str) =
        (if u256FromBytes bytes > height then Except.error Error.NotFound
         else Except.ok (u256FromBytes bytes)) := by
  refine ⟨rfl, by simp [fromBlockNumber], by simp [fromBlockNumber],
    by simp [fromBlockNumber], ?_⟩
  intro str bytes h1 h2 h3 hhex hlt
  have hc1 : ¬(some str = some "latest" ∨ some str = some "pending" ∨
      (some str : Option String) = none) := by
    simp [h1, h2]
  have hc2 : ¬(some str = some "earliest") := by simp [h3]
  simp only [fromBlockNumber, hc1, if_false, hc2, hhex]
  rw [Nat.mod_eq_of_lt hlt]

/-- C6 witness: at height 3 the parameter `"0x05"` decodes to 5, which exceeds
the height and is rejected with `NotFound`. -/
theorem fromBlockNumber_c6_witness :
    fromBlockNumber 3 (some "0x05")
      = (if u256FromBytes [5] > 3 then Except.error Error.NotFound
         else Except.ok (u256FromBytes [5])) :=
  (fromBlockNumber_c6 3).2.2.2.2 "0x05" [5] (by decide) (by decide) (by decide)
    (by decide) (by decide)

/-- C5: the `eth_call` handler leaves the chain state unchanged: the state it
returns is the state it was given, iterating it any number of times returns
the starting state, no balance observable through `eth_getBalance` and no
nonce observable through `eth_getTransactionCount` changes across a call, and
a repeated call with the same arguments returns the same bytes. -/
theorem ethCall_pure_c5 (world : WorldView) (callVM : CallFn) (s : MinerState)
    (tx : RPCTransactionInput) (blockTag : Option String) :
    (ethCall world callVM s tx blockTag).2 = s ∧
    (∀ n, ethCallIter world callVM tx blockTag n s = s) ∧
    (∀ address tag,
      ethGetBalance world (ethCall world callVM s tx blockTag).2 address tag
        = ethGetBalance world s address tag) ∧
    (∀ address tag,
      ethGetTransactionCount world (ethCall world callVM s tx blockTag).2 address tag
        = ethGetTransactionCount world s address tag) ∧
    (ethCall world callVM (ethCall world callVM s tx blockTag).2 tx blockTag).1
      = (ethCall world callVM s tx blockTag).1 := by
  refine ⟨rfl, ?_, fun _ _ => rfl, fun _ _ => rfl, rfl⟩
  intro n
  induction n generalizing s with
  | zero => rfl
  | succ k ih => exact ih s

theorem reverse_take_eq_last256Spec (bs : List H256) (n : Nat)
    (hn : n ≤ bs.length) :
    (bs.take n).reverse.take 256 = last256Spec bs n := by
  have hlen : (bs.take n).length = n := by
    rw [List.length_take]
    omega
  apply List.ext_getElem?
  intro i
  by_cases hi : i < min 256 n
  · have hi256 : i < 256 := lt_of_lt_of_le hi (min_le_left _ _)
    have hin : i < n := lt_of_lt_of_le hi (min_le_right _ _)
    have hrevlen : (bs.take n).reverse.length = n := by simp [hlen]
    have hj : n - 1 - i < n := by omega
    have hjb : n - 1 - i < bs.length := by omega
    have lhs1 : ((bs.take n).reverse.take 256)[i]? = (bs.take n).reverse[i]? := by
      simp [List.getElem?_take, hi256]
    have lhs2 : (bs.take n).reverse[i]? = (bs.take n)[n - 1 - i]? := by
      rw [List.getElem?_reverse (by omega : i < (bs.take n).length)]
      rw [hlen]
    have lhs3 : (bs.take n)[n - 1 - i]? = bs[n - 1 - i]? := by
      simp [List.getElem?_take, hj]
    have rhs1 : (last256Spec bs n)[i]? = some (bs.getD (n - 1 - i) 0) := by
      simp [last256Spec, List.getElem?_map, List.getElem?_range hi]
    rw [lhs1, lhs2, lhs3, rhs1]
    rw [List.getElem?_eq_getElem hjb]
    rw [List.getD_eq_getElem?_getD, List.getElem?_eq_getElem hjb]
    rfl
  · have hlen1 : ((bs.take n).reverse.take 256).length = min 256 n := by
      simp [hlen, Nat.min_comm]
    have hlen2 : (last256Spec bs n).length = min 256 n := by
      simp [last256Spec]
    rw [List.getElem?_eq_none (by omega : ((bs.take n).reverse.take 256).length ≤ i),
      List.getElem?_eq_none (by omega : (last256Spec bs n).length ≤ i)]

/-- C8: for every chain store and every number `n` not exceeding the count of
stored blocks, `last_256_block_hashes_at(n)` returns exactly the hashes of
blocks `n-256 … n-1` in descending block-number order: entry `i` is the hash
of block `n-1-i`, the length is `min 256 n` (shorter than 256 near genesis),
and every returned hash sits at a block number strictly below `n`, so the
block numbered `n` itself is never included. -/
theorem getLast256_c8 (s : MinerState) (n : Nat)
    (hn : n ≤ s.blockHashes.length) :
    s.getLast256BlockHashesByNumber n = some (last256Spec s.blockHashes n) ∧
    (last256Spec s.blockHashes n).length = min 256 n ∧
    (∀ i, i < min 256 n →
      (last256Spec s.blockHashes n)[i]? = s.blockHashes[n - 1 - i]?) ∧
    (∀ x ∈ last256Spec s.blockHashes n,
      ∃ i, i < n ∧ s.blockHashes[i]? = some x) := by
  have hspec := reverse_take_eq_last256Spec s.blockHashes n hn
  refine ⟨?_, by simp [last256Spec], ?_, ?_⟩
  · unfold MinerState.getLast256BlockHashesByNumber
    rw [if_pos hn, popLoop_eq_reverse_take, hspec]
  · intro i hi
    have hin : i < n := lt_of_lt_of_le hi (min_le_right _ _)
    have hjb : n - 1 - i < s.blockHashes.length := by omega
    simp only [last256Spec, List.getElem?_map, List.getElem?_range hi,
      Option.map_some']
    rw [List.getElem?_eq_getElem hjb,
      List.getD_eq_getElem?_getD, List.getElem?_eq_getElem hjb]
    rfl
  · intro x hx
    simp only [last256Spec, List.mem_map, List.mem_range] at hx
    obtain ⟨i, hi, hxi⟩ := hx
    have hin : i < n := lt_of_lt_of_le hi (min_le_right _ _)
    refine ⟨n - 1 - i, by omega, ?_⟩
    have hjb : n - 1 - i < s.blockHashes.length := by omega
    rw [List.getElem?_eq_getElem hjb]
    rw [← hxi, List.getD_eq_getElem?_getD, List.getElem?_eq_getElem hjb]
    rfl

/-- C8 witness: at the freshly constructed chain store, the last-256 list at
`n = 1` is the genesis hash alone, matching the claim's description. -/
theorem getLast256_c8_witness :
    (MinerState.new genesisEx 0).getLast256BlockHashesByNumber 1
      = some (last256Spec (MinerState.new genesisEx 0).blockHashes 1) :=
  (getLast256_c8 (MinerState.new genesisEx 0) 1 (by decide)).1

theorem dbGet_isSome_insert {α : Type} (m : Database α) (k k' : H256) (v : α)
    (h : (dbGet m k').isSome) : (dbGet (dbInsert m k v) k').isSome := by
  by_cases hk : k = k'
  · subst hk
    simp [dbGet_insert_self]
  · rw [dbGet_insert_ne _ _ _ _ hk]
    exact h

theorem currentBlock_mem_blockHashes {s : MinerState}
    (hlast : s.blockHashes.getLast? = some s.currentBlock) :
    s.currentBlock ∈ s.blockHashes := by
  obtain ⟨hne, hx⟩ :=
    List.mem_getLast?_eq_getLast (Option.mem_def.mpr hlast)
  rw [hx]
  exact List.getLast_mem hne

theorem clearPendingTransactions_eq (s : MinerState) :
    s.clearPendingTransactions
      = (lookupAll s.transactionDatabase s.pendingTransactionHashes).map
          (fun ts => (ts, { s with pendingTransactionHashes := [] })) := rfl

theorem appendBlock_eq (s : MinerState) (b : Block) :
    s.appendBlock b =
      match s.blockHashes.getLast? with
      | none => none
      | some parentHash =>
        match dbGet s.totalHeaderDatabase parentHash with
        | none => none
        | some parent =>
          some ({ s with
                    blockDatabase := dbInsert s.blockDatabase (headerHash b.header) b
                    transactionBlockHashes :=
                      b.transactions.foldl
                        (fun db t => dbInsert db (txHash t) (headerHash b.header))
                        s.transactionBlockHashes
                    totalHeaderDatabase :=
                      dbInsert s.totalHeaderDatabase (headerHash b.header)
                        (TotalHeader.fromParent b.header parent)
                    blockHashes := s.blockHashes ++ [headerHash b.header]
                    currentBlock := headerHash b.header },
                headerHash b.header) := rfl

theorem new_blockHashes (g : Block) (root : H256) :
    (MinerState.new g root).blockHashes = [headerHash g.header] := rfl

theorem new_currentBlock (g : Block) (root : H256) :
    (MinerState.new g root).currentBlock = headerHash g.header := rfl

theorem new_blockDatabase (g : Block) (root : H256) :
    (MinerState.new g root).blockDatabase
      = dbInsert [] (headerHash g.header) g := rfl

theorem new_totalHeaderDatabase (g : Block) (root : H256) :
    (MinerState.new g root).totalHeaderDatabase
      = dbInsert [] (headerHash g.header) (TotalHeader.fromGenesis g.header) := rfl

theorem stateWF_new (g : Block) (root : H256) : StateWF (MinerState.new g root) := by
  refine ⟨?_, ?_, ?_⟩
  · rw [new_blockHashes]
    exact List.cons_ne_nil _ _
  · rw [new_blockHashes, new_currentBlock]
    rfl
  · intro h hh
    rw [new_blockHashes] at hh
    have : h = headerHash g.header := List.mem_singleton.mp hh
    subst this
    rw [new_blockDatabase, new_totalHeaderDatabase]
    rw [dbGet_insert_self, dbGet_insert_self]
    exact ⟨rfl, rfl⟩

/-- C9: the chain-store well-formedness invariant (every listed hash keys both
the block and total-header databases, the hash list is non-empty and
`current_block` is its last element) is established by `new` and preserved by
every operation — in particular `append_block` always succeeds on a
well-formed state — and consequently `current_block()`,
`get_block_by_number(i)` and `get_total_header_by_number(i)` are defined for
every `i ≤ block_height()`. -/
theorem minerState_wf_c9 :
    (∀ (genesis : Block) (root : H256), StateWF (MinerState.new genesis root)) ∧
    (∀ s t, StateWF s → StateWF (s.appendPendingTransaction t).1) ∧
    (∀ s ts s', StateWF s → s.clearPendingTransactions = some (ts, s') →
      StateWF s') ∧
    (∀ s h r, StateWF s → StateWF (s.insertReceipt h r)) ∧
    (∀ s k, StateWF s → StateWF (s.appendAccount k)) ∧
    (∀ s a, StateWF s → StateWF (s.appendAddress a)) ∧
    (∀ s b, StateWF s → ∃ s' h, s.appendBlock b = some (s', h) ∧ StateWF s') ∧
    (∀ s, StateWF s → ∀ i, i ≤ s.blockHeight →
      (s.getBlockByNumber i).isSome ∧ (s.getTotalHeaderByNumber i).isSome) ∧
    (∀ s, StateWF s → (s.getCurrentBlock).isSome) := by
  have hnum : ∀ s : MinerState, StateWF s → ∀ i, i ≤ s.blockHeight →
      (s.getBlockByNumber i).isSome ∧ (s.getTotalHeaderByNumber i).isSome := by
    intro s hwf i hi
    obtain ⟨hne, hlast, hall⟩ := hwf
    have hlen : 0 < s.blockHashes.length := List.length_pos.mpr hne
    have hilt : i < s.blockHashes.length := by
      unfold MinerState.blockHeight at hi
      omega
    have hmem : s.blockHashes[i] ∈ s.blockHashes := List.getElem_mem _
    obtain ⟨hbs, hth⟩ := hall _ hmem
    constructor
    · unfold MinerState.getBlockByNumber
      rw [List.getElem?_eq_getElem hilt]
      exact hbs
    · unfold MinerState.getTotalHeaderByNumber
      rw [List.getElem?_eq_getElem hilt]
      exact hth
  refine ⟨stateWF_new, fun s t h => h, ?_, fun s h r hwf => hwf,
    fun s k hwf => hwf, fun s a hwf => hwf, ?_, hnum,
    fun s hwf => (hnum s hwf s.blockHeight (le_refl _)).1⟩
  · intro s ts s' hwf heq
    rw [clearPendingTransactions_eq] at heq
    cases hl : lookupAll s.transactionDatabase s.pendingTransactionHashes with
    | none =>
      rw [hl] at heq
      simp at heq
    | some ts' =>
      rw [hl] at heq
      simp only [Option.map_some', Option.some.injEq, Prod.mk.injEq] at heq
      rw [← heq.2]
      exact hwf
  · intro s b hwf
    obtain ⟨hne, hlast, hall⟩ := hwf
    obtain ⟨hbs, hth⟩ := hall s.currentBlock (currentBlock_mem_blockHashes hlast)
    obtain ⟨parent, hparent⟩ := Option.isSome_iff_exists.mp hth
    have happ : s.appendBlock b = some
        ({ s with
            blockDatabase := dbInsert s.blockDatabase (headerHash b.header) b
            transactionBlockHashes :=
              b.transactions.foldl
                (fun db t => dbInsert db (txHash t) (headerHash b.header))
                s.transactionBlockHashes
            totalHeaderDatabase :=
              dbInsert s.totalHeaderDatabase (headerHash b.header)
                (TotalHeader.fromParent b.header parent)
            blockHashes := s.blockHashes ++ [headerHash b.header]
            currentBlock := headerHash b.header },
          headerHash b.header) := by
      simp only [MinerState.appendBlock, hlast, hparent]
    refine ⟨_, _, happ, ?_, ?_, ?_⟩
    · simp
    · simp
    · intro h hh
      rcases List.mem_append.mp hh with hold | hnew
      · obtain ⟨hb', ht'⟩ := hall h hold
        exact ⟨dbGet_isSome_insert _ _ _ _ hb', dbGet_isSome_insert _ _ _ _ ht'⟩
      · have : h = headerHash b.header := by simpa using hnew
        subst this
        rw [dbGet_insert_self, dbGet_insert_self]
        exact ⟨rfl, rfl⟩

/-- C9 witness: at the freshly constructed chain store the invariant holds,
`append_block` succeeds on an assembled next block, and the readers at index
0 and the current block are defined. -/
theorem minerState_wf_c9_witness :
    StateWF (MinerState.new genesisEx 0) ∧
    (∃ s' h, (MinerState.new genesisEx 0).appendBlock
        (next genesisEx [] [] 0 0 0 0) = some (s', h) ∧ StateWF s') ∧
    ((MinerState.new genesisEx 0).getBlockByNumber 0).isSome ∧
    ((MinerState.new genesisEx 0).getCurrentBlock).isSome := by
  have h1 := minerState_wf_c9.1 genesisEx 0
  refine ⟨h1, ?_, ?_, ?_⟩
  · exact minerState_wf_c9.2.2.2.2.2.2.1 _ (next genesisEx [] [] 0 0 0 0) h1
  · exact (minerState_wf_c9.2.2.2.2.2.2.2.1 _ h1 0 (Nat.zero_le _)).1
  · exact minerState_wf_c9.2.2.2.2.2.2.2.2 _ h1

theorem appendPending_fields (s : MinerState) (t : Transaction) :
    (s.appendPendingTransaction t).1.pendingTransactionHashes
        = s.pendingTransactionHashes ++ [txHash t] ∧
    (s.appendPendingTransaction t).1.transactionDatabase
        = dbInsert s.transactionDatabase (txHash t) t ∧
    (s.appendPendingTransaction t).1.allPendingTransactionHashes
        = s.allPendingTransactionHashes ++ [txHash t] ∧
    (s.appendPendingTransaction t).2 = txHash t :=
  ⟨rfl, rfl, rfl, rfl⟩

theorem appendAll_cons (s : MinerState) (t : Transaction)
    (ts : List Transaction) :
    appendAll s (t :: ts) = appendAll (s.appendPendingTransaction t).1 ts := rfl

theorem appendAll_pending (s : MinerState) (ts : List Transaction) :
    (appendAll s ts).pendingTransactionHashes
      = s.pendingTransactionHashes ++ ts.map txHash := by
  induction ts generalizing s with
  | nil => simp [appendAll]
  | cons t rest ih =>
    rw [appendAll_cons, ih, (appendPending_fields s t).1, List.map_cons,
      List.append_assoc]
    rfl

theorem appendAll_allPending (s : MinerState) (ts : List Transaction) :
    (appendAll s ts).allPendingTransactionHashes
      = s.allPendingTransactionHashes ++ ts.map txHash := by
  induction ts generalizing s with
  | nil => simp [appendAll]
  | cons t rest ih =>
    rw [appendAll_cons, ih, (appendPending_fields s t).2.2.1, List.map_cons,
      List.append_assoc]
    rfl

theorem dbGet_txHash_appendPending (s : MinerState) (u t : Transaction)
    (h : dbGet s.transactionDatabase (txHash t) = some t) :
    dbGet (s.appendPendingTransaction u).1.transactionDatabase (txHash t)
      = some t := by
  rw [(appendPending_fields s u).2.1]
  by_cases he : txHash u = txHash t
  · have : u = t := txHash_injective he
    subst this
    exact dbGet_insert_self _ _ _
  · rw [dbGet_insert_ne _ _ _ _ he]
    exact h

theorem dbGet_txHash_appendAll (s : MinerState) (ts : List Transaction)
    (t : Transaction)
    (h : dbGet s.transactionDatabase (txHash t) = some t) :
    dbGet (appendAll s ts).transactionDatabase (txHash t) = some t := by
  induction ts generalizing s with
  | nil => exact h
  | cons u rest ih =>
    rw [appendAll_cons]
    exact ih _ (dbGet_txHash_appendPending s u t h)

theorem appendAll_lookup (s : MinerState) (ts : List Transaction) :
    ∀ t ∈ ts, dbGet (appendAll s ts).transactionDatabase (txHash t) = some t := by
  induction ts generalizing s with
  | nil =>
    intro t ht
    exact absurd ht (List.not_mem_nil t)
  | cons u rest ih =>
    intro t ht
    rw [appendAll_cons]
    rcases List.mem_cons.mp ht with h | h
    · subst h
      refine dbGet_txHash_appendAll _ rest t ?_
      rw [(appendPending_fields s t).2.1]
      exact dbGet_insert_self _ _ _
    · exact ih _ t h

theorem lookupAll_map (db : Database Transaction) (ts : List Transaction)
    (h : ∀ t ∈ ts, dbGet db (txHash t) = some t) :
    lookupAll db (ts.map txHash) = some ts := by
  induction ts with
  | nil => rfl
  | cons t rest ih =>
    simp only [List.map_cons, lookupAll, h t (List.mem_cons_self t rest)]
    rw [ih (fun u hu => h u (List.mem_cons_of_mem t hu))]
    rfl

/-- C10: enqueuing transactions into an empty pending queue and then calling
`clear_pending_transactions` returns exactly those transactions in enqueue
(FIFO) order, empties the queue (so an immediate second call returns the
empty list and the same state), and leaves both the transaction database and
the all-pending-hashes history unchanged. -/
theorem clearPending_fifo_c10 (s : MinerState) (ts : List Transaction)
    (hpend : s.pendingTransactionHashes = []) :
    ∃ s', (appendAll s ts).clearPendingTransactions = some (ts, s') ∧
      s'.pendingTransactionHashes = [] ∧
      s'.transactionDatabase = (appendAll s ts).transactionDatabase ∧
      s'.allPendingTransactionHashes
        = (appendAll s ts).allPendingTransactionHashes ∧
      s'.clearPendingTransactions = some ([], s') := by
  have hlk := appendAll_lookup s ts
  have hpend' : (appendAll s ts).pendingTransactionHashes = ts.map txHash := by
    rw [appendAll_pending, hpend, List.nil_append]
  refine ⟨{ appendAll s ts with pendingTransactionHashes := [] },
    ?_, rfl, rfl, rfl, ?_⟩
  · rw [clearPendingTransactions_eq, hpend', lookupAll_map _ _ hlk]
    rfl
  · rw [clearPendingTransactions_eq]
    rfl

/-- C10 witness: two concrete transactions enqueued on the fresh store come
back in order, and the second drain is empty. -/
theorem clearPending_fifo_c10_witness :
    ∃ s', (appendAll (MinerState.new genesisEx 0)
        [txEx 0, txEx 1]).clearPendingTransactions = some ([txEx 0, txEx 1], s') ∧
      s'.pendingTransactionHashes = [] ∧
      s'.transactionDatabase
        = (appendAll (MinerState.new genesisEx 0) [txEx 0, txEx 1]).transactionDatabase ∧
      s'.allPendingTransactionHashes
        = (appendAll (MinerState.new genesisEx 0) [txEx 0, txEx 1]).allPendingTransactionHashes ∧
      s'.clearPendingTransactions = some ([], s') :=
  clearPending_fifo_c10 (MinerState.new genesisEx 0) [txEx 0, txEx 1] rfl

theorem clearPending_inv {s : MinerState} {ts : List Transaction}
    {s' : MinerState} (h : s.clearPendingTransactions = some (ts, s')) :
    s' = { s with pendingTransactionHashes := [] } := by
  rw [clearPendingTransactions_eq] at h
  cases hl : lookupAll s.transactionDatabase s.pendingTransactionHashes with
  | none =>
    rw [hl] at h
    simp at h
  | some ts' =>
    rw [hl] at h
    simp only [Option.map_some', Option.some.injEq, Prod.mk.injEq] at h
    exact h.2.symm

theorem appendBlock_inv {s : MinerState} {b : Block} {s' : MinerState}
    {h : H256} (happ : s.appendBlock b = some (s', h)) :
    s'.transactionBlockHashes
        = b.transactions.foldl
            (fun db t => dbInsert db (txHash t) (headerHash b.header))
            s.transactionBlockHashes ∧
    s'.transactionDatabase = s.transactionDatabase ∧
    s'.blockDatabase = dbInsert s.blockDatabase (headerHash b.header) b := by
  rw [appendBlock_eq] at happ
  cases hl : s.blockHashes.getLast? with
  | none =>
    rw [hl] at happ
    simp at happ
  | some p =>
    rw [hl] at happ
    simp only [] at happ
    cases hp : dbGet s.totalHeaderDatabase p with
    | none =>
      rw [hp] at happ
      simp at happ
    | some parent =>
      rw [hp] at happ
      simp only [] at happ
      simp only [Option.some.injEq, Prod.mk.injEq] at happ
      rw [← happ.1]
      exact ⟨rfl, rfl, rfl⟩


theorem dbGet_foldl_insert {hash : H256} (ts : List Transaction)
    (db0 : Database H256) (h : H256) (bh : H256)
    (hget : dbGet
        (ts.foldl (fun db t => dbInsert db (txHash t) hash) db0) h = some bh) :
    (∃ t ∈ ts, txHash t = h) ∨ dbGet db0 h = some bh := by
  induction ts generalizing db0 with
  | nil => exact Or.inr hget
  | cons u rest ih =>
    rw [List.foldl_cons] at hget
    rcases ih _ hget with h1 | h2
    · obtain ⟨t, ht, he⟩ := h1
      exact Or.inl ⟨t, List.mem_cons_of_mem u ht, he⟩
    · by_cases he : txHash u = h
      · exact Or.inl ⟨u, List.mem_cons_self u rest, he⟩
      · rw [dbGet_insert_ne _ _ _ _ he] at h2
        exact Or.inr h2

theorem reach_txBlockHashes {s0 s : MinerState} {bs : List Block}
    (hr : Reach s0 s bs) (h0 : s0.transactionBlockHashes = []) :
    ∀ h bh, dbGet s.transactionBlockHashes h = some bh →
      ∃ b ∈ bs, ∃ t ∈ b.transactions, txHash t = h := by
  induction hr with
  | refl =>
    intro h bh hget
    rw [h0] at hget
    simp [dbGet] at hget
  | pending t _ ih =>
    intro h bh hget
    exact ih h bh hget
  | clearQueue _ heq ih =>
    intro h bh hget
    rw [clearPending_inv heq] at hget
    exact ih h bh hget
  | receipt k r _ ih =>
    intro h bh hget
    exact ih h bh hget
  | account k _ ih =>
    intro h bh hget
    exact ih h bh hget
  | address a _ ih =>
    intro h bh hget
    exact ih h bh hget
  | block _ happ ih =>
    intro h bh hget
    rw [(appendBlock_inv happ).1] at hget
    rcases dbGet_foldl_insert _ _ _ _ hget with h1 | h2
    · obtain ⟨t, ht, he⟩ := h1
      exact ⟨_, List.mem_append_right _ (List.mem_singleton_self _), t, ht, he⟩
    · obtain ⟨b', hb', t, ht, he⟩ := ih h _ h2
      exact ⟨b', List.mem_append_left _ hb', t, ht, he⟩

theorem reach_txdb_mono {s0 s : MinerState} {bs : List Block}
    (hr : Reach s0 s bs) (h : H256)
    (hsome : (dbGet s0.transactionDatabase h).isSome) :
    (dbGet s.transactionDatabase h).isSome := by
  induction hr with
  | refl => exact hsome
  | pending t _ ih =>
    rw [(appendPending_fields _ t).2.1]
    exact dbGet_isSome_insert _ _ _ _ ih
  | clearQueue _ heq ih =>
    rw [clearPending_inv heq]
    exact ih
  | receipt k r _ ih => exact ih
  | account k _ ih => exact ih
  | address a _ ih => exact ih
  | block _ happ ih =>
    rw [(appendBlock_inv happ).2.1]
    exact ih

theorem transactionByHash_isSome (s : MinerState) (h : H256) :
    (transactionByHash s h).isSome = (s.getTransactionByHash h).isSome := by
  unfold transactionByHash
  cases hx : s.getTransactionByHash h <;> rfl

theorem transactionReceipt_isSome_inv (s : MinerState) (h : H256)
    (hs : (transactionReceipt s h).isSome) :
    (∃ bh, s.getTransactionBlockHashByHash h = some bh) ∧
    (s.getTransactionByHash h).isSome := by
  unfold transactionReceipt at hs
  cases h1 : s.getReceiptByTransactionHash h
  · rw [h1] at hs
    simp at hs
  · rw [h1] at hs
    cases h2 : s.getTransactionByHash h
    · rw [h2] at hs
      simp at hs
    · rw [h2] at hs
      cases h3 : s.getTransactionBlockHashByHash h
      · rw [h3] at hs
        simp at hs
      · exact ⟨⟨_, rfl⟩, rfl⟩

/-- C7: a transaction hash returned by `eth_sendTransaction` is queryable
through `eth_getTransactionByHash` from the moment the send returns, that
queryability persists across every later chain operation, and
`eth_getTransactionReceipt` stays null until a block containing the
transaction has been appended: a non-null receipt response implies some block
appended so far holds a transaction with that hash (and the hash is then also
queryable by `eth_getTransactionByHash`); hence a transaction never becomes
queryable by receipt before it is queryable by hash. -/
theorem sendTransaction_visibility_c7 :
    (∀ (toSigned : SignFn) (toValid : ToValidFn) (s : MinerState)
        (rtx : RPCTransactionInput) (hash : H256) (s' : MinerState),
      sendTransaction toSigned toValid s rtx = (Except.ok hash, s') →
      ∃ t, toSigned s rtx = Except.ok t ∧ hash = txHash t ∧
        s'.getTransactionByHash hash = some t ∧
        (transactionByHash s' hash).isSome) ∧
    (∀ s s' bs hash, Reach s s' bs →
      (transactionByHash s hash).isSome → (transactionByHash s' hash).isSome) ∧
    (∀ (genesis : Block) (root : H256) (s : MinerState) (bs : List Block)
        (hash : H256),
      Reach (MinerState.new genesis root) s bs →
      (transactionReceipt s hash).isSome →
      (∃ b ∈ bs, ∃ t ∈ b.transactions, txHash t = hash) ∧
      (transactionByHash s hash).isSome) := by
  refine ⟨?_, ?_, ?_⟩
  · intro toSigned toValid s rtx hash s' heq
    unfold sendTransaction at heq
    cases hsig : toSigned s rtx with
    | error e =>
      rw [hsig] at heq
      simp at heq
    | ok t =>
      rw [hsig] at heq
      simp only [] at heq
      cases hval : toValid t with
      | error e =>
        rw [hval] at heq
        simp at heq
      | ok v =>
        rw [hval] at heq
        simp only [Prod.mk.injEq, Except.ok.injEq] at heq
        obtain ⟨hh, hs⟩ := heq
        have hget : s'.getTransactionByHash hash = some t := by
          rw [← hs, ← hh]
          show dbGet (s.appendPendingTransaction t).1.transactionDatabase
              (s.appendPendingTransaction t).2 = some t
          rw [(appendPending_fields s t).2.1, (appendPending_fields s t).2.2.2]
          exact dbGet_insert_self _ _ _
        refine ⟨t, rfl, ?_, hget, ?_⟩
        · rw [← hh]
          exact (appendPending_fields s t).2.2.2
        · rw [transactionByHash_isSome, hget]
          rfl
  · intro s s' bs hash hr hsome
    rw [transactionByHash_isSome] at hsome ⊢
    exact reach_txdb_mono hr hash hsome
  · intro genesis root s bs hash hr hrec
    obtain ⟨⟨bh, hbh⟩, htx⟩ := transactionReceipt_isSome_inv s hash hrec
    constructor
    · exact reach_txBlockHashes hr rfl hash bh hbh
    · rw [transactionByHash_isSome]
      exact htx

/-- C7 witness: sending `txEx 0` on the fresh store makes it immediately
queryable by hash; on the resulting state, where no block has been appended,
a non-null receipt response would force a containing block in the empty
append list. -/
theorem sendTransaction_visibility_c7_witness :
    (∃ t, toSignedEx (MinerState.new genesisEx 0) rpcTxEx = Except.ok t ∧
        txHash (txEx 0) = txHash t ∧
        (((MinerState.new genesisEx 0).appendPendingTransaction
            (txEx 0)).1).getTransactionByHash (txHash (txEx 0)) = some t ∧
        (transactionByHash
            ((MinerState.new genesisEx 0).appendPendingTransaction (txEx 0)).1
            (txHash (txEx 0))).isSome) ∧
    ((transactionReceipt
          ((MinerState.new genesisEx 0).appendPendingTransaction (txEx 0)).1
          (txHash (txEx 0))).isSome →
      (∃ b ∈ ([] : List Block), ∃ t ∈ b.transactions,
          txHash t = txHash (txEx 0)) ∧
      (transactionByHash
          ((MinerState.new genesisEx 0).appendPendingTransaction (txEx 0)).1
          (txHash (txEx 0))).isSome) :=
  ⟨sendTransaction_visibility_c7.1 toSignedEx toValidEx
      (MinerState.new genesisEx 0) rpcTxEx (txHash (txEx 0)) _ rfl,
   fun hrec => sendTransaction_visibility_c7.2.2 genesisEx 0 _ []
      (txHash (txEx 0)) (Reach.pending (txEx 0) (Reach.refl _)) hrec⟩

theorem getCurrentBlock_stored {s : MinerState} {cur : Block}
    (h : s.getCurrentBlock = some cur) : storedBlock s cur := by
  unfold MinerState.getCurrentBlock MinerState.getBlockByNumber at h
  cases hx : s.blockHashes[s.blockHeight]? with
  | none =>
    rw [hx] at h
    simp at h
  | some k =>
    rw [hx] at h
    simp only [Option.some_bind] at h
    exact ⟨k, h⟩

theorem storedBlock_shift {s s' : MinerState} {q b' : Block}
    (hdb : s'.blockDatabase = dbInsert s.blockDatabase (headerHash b'.header) b')
    (hkeys : ∀ p ∈ s.blockDatabase, p.1 = headerHash p.2.header)
    (hq : storedBlock s q) :
    ∃ q', storedBlock s' q' ∧ q'.header = q.header := by
  obtain ⟨k, hk⟩ := hq
  by_cases he : headerHash b'.header = k
  · have hkey : k = headerHash q.header := hkeys _ (dbGet_mem hk)
    have hhq : b'.header = q.header := by
      apply headerHash_injective
      rw [hkey] at he
      exact he
    refine ⟨b', ⟨headerHash b'.header, ?_⟩, hhq⟩
    rw [hdb]
    exact dbGet_insert_self _ _ _
  · refine ⟨q, ⟨k, ?_⟩, rfl⟩
    rw [hdb, dbGet_insert_ne _ _ _ _ he]
    exact hk

theorem chainInv_insert (genesis : Block) (s : MinerState) {s' : MinerState}
    (inv : ChainInv genesis s) {cur b' : Block}
    (hcur : storedBlock s cur)
    (hpar : b'.header.parentHash = headerHash cur.header)
    (hnum : b'.header.number = cur.header.number + 1)
    (hdb : s'.blockDatabase
      = dbInsert s.blockDatabase (headerHash b'.header) b') :
    ChainInv genesis s' := by
  obtain ⟨h0, hg, hent⟩ := inv
  have hkeys : ∀ p ∈ s.blockDatabase, p.1 = headerHash p.2.header :=
    fun p hp => (hent p hp).1
  have hne : headerHash b'.header ≠ headerHash genesis.header := by
    intro he
    have : b'.header = genesis.header := headerHash_injective he
    rw [this, h0] at hnum
    exact Nat.succ_ne_zero _ hnum.symm
  refine ⟨h0, ?_, ?_⟩
  · rw [hdb, dbGet_insert_ne _ _ _ _ hne]
    exact hg
  · intro p hp
    rw [hdb] at hp
    rcases List.mem_cons.mp hp with hnew | hold
    · subst hnew
      refine ⟨rfl, ?_, ?_⟩
      · intro hz
        rw [hnum] at hz
        exact absurd hz (Nat.succ_ne_zero _)
      · intro _
        obtain ⟨q', hq', hhdr⟩ := storedBlock_shift hdb hkeys hcur
        refine ⟨q', hq', ?_, ?_⟩
        · rw [hhdr, hpar]
        · rw [hhdr, hnum]
    · obtain ⟨hkey, hzero, hlink⟩ := hent p hold
      refine ⟨hkey, hzero, ?_⟩
      intro hnz
      obtain ⟨q, hq, hqpar, hqnum⟩ := hlink hnz
      obtain ⟨q', hq', hhdr⟩ := storedBlock_shift hdb hkeys hq
      refine ⟨q', hq', ?_, ?_⟩
      · rw [hhdr]
        exact hqpar
      · rw [hhdr]
        exact hqnum

theorem chainReach_inv {genesis : Block} {root : H256} {s : MinerState}
    (hr : ChainReach genesis root s) : ChainInv genesis s := by
  induction hr with
  | init h0 htx =>
    refine ⟨h0, ?_, ?_⟩
    · rw [new_blockDatabase]
      exact dbGet_insert_self _ _ _
    · intro p hp
      rw [new_blockDatabase] at hp
      have hp' : p = (headerHash genesis.header, genesis) := by
        simpa [dbInsert] using hp
      subst hp'
      refine ⟨rfl, fun _ => rfl, ?_⟩
      intro hnz
      exact absurd h0 hnz
  | pending t _ ih => exact ih
  | clearQueue _ heq ih =>
    rw [clearPending_inv heq]
    exact ih
  | receipt k r _ ih => exact ih
  | mined transactions receipts beneficiary gasLimit stateRoot timestamp _ hcur happ ih =>
    exact chainInv_insert _ _ ih (getCurrentBlock_stored hcur) rfl rfl
      (appendBlock_inv happ).2.2

/-- C3: at every steady state the chain store reaches (genesis construction,
then pending-queue and receipt operations and appends of miner-assembled
blocks), exactly one stored block has number 0, and every other stored
block's parent hash is the header hash of a stored block whose number is
exactly one less than its own. -/
theorem chain_linked_c3 (genesis : Block) (root : H256) (s : MinerState)
    (hr : ChainReach genesis root s) :
    (∃ b, storedBlock s b ∧ b.header.number = 0 ∧
      ∀ b', storedBlock s b' → b'.header.number = 0 → b' = b) ∧
    (∀ b, storedBlock s b → b.header.number ≠ 0 →
      ∃ p, storedBlock s p ∧ headerHash p.header = b.header.parentHash ∧
        p.header.number + 1 = b.header.number) := by
  obtain ⟨h0, hg, hent⟩ := chainReach_inv hr
  refine ⟨⟨genesis, ⟨_, hg⟩, h0, ?_⟩, ?_⟩
  · intro b' hb' hn0
    obtain ⟨k, hk⟩ := hb'
    exact (hent _ (dbGet_mem hk)).2.1 hn0
  · intro b hb hneq
    obtain ⟨k, hk⟩ := hb
    exact (hent _ (dbGet_mem hk)).2.2 hneq

/-- C3 witness: the claim instantiated at the freshly constructed chain store
holding the concrete genesis block. -/
theorem chain_linked_c3_witness :
    (∃ b, storedBlock (MinerState.new genesisEx 0) b ∧ b.header.number = 0 ∧
      ∀ b', storedBlock (MinerState.new genesisEx 0) b' →
        b'.header.number = 0 → b' = b) ∧
    (∀ b, storedBlock (MinerState.new genesisEx 0) b → b.header.number ≠ 0 →
      ∃ p, storedBlock (MinerState.new genesisEx 0) p ∧
        headerHash p.header = b.header.parentHash ∧
        p.header.number + 1 = b.header.number) :=
  chain_linked_c3 genesisEx 0 _ (ChainReach.init rfl rfl)
